import Mathlib

/-!
Shallow embedding of the LibrsyncSwift repository: the header shim at
`Sources/Clibrsync/include/librsync.h` (the only source file), and the
rsync-style delta-encoding engine that the specification derives for it
(rolling checksum, signature build, signature index, delta encode, delta
apply, instruction codec).  Bytes are embedded as `Nat` values below 256,
streams as `List Nat`, machine integers as `Nat` reduced with an explicit
modulus where overflow matters, and fallible operations as `Except`.
-/

/-- Modelled from the spec: §7 names `InvalidConfig`, `OutOfRange` and
`MalformedStream` as the three fatal error classes of the engine. -/
inductive RsyncError where
  | invalidConfig
  | outOfRange
  | malformedStream
deriving DecidableEq

/-- Modelled from the spec: §4.1 — the rolling-checksum state holds two
accumulators reduced modulo `2^16` (`a`: sum of the window's bytes, `b`:
sum of weighted prefix sums) plus the window length needed for the O(1)
roll update. -/
structure RollState where
  a : Nat
  b : Nat
  len : Nat
deriving DecidableEq

/-- Sum of the bytes of a window. -/
def sumBytes : List Nat → Nat
  | [] => 0
  | x :: xs => x + sumBytes xs

/-- Weighted byte sum of a window: the byte at position `i` of a window of
length `l` contributes with weight `l - i`, so the first byte weighs most
and the last byte weighs 1. -/
def weightedSum : List Nat → Nat
  | [] => 0
  | x :: xs => (xs.length + 1) * x + weightedSum xs

namespace RollingChecksum

/-- Modelled from the spec: §4.1 `init(window) -> State` computes the two
accumulators of the window directly, each modulo `2^16`. -/
def init (window : List Nat) : RollState :=
  ⟨sumBytes window % 65536, weightedSum window % 65536, window.length⟩

/-- Modelled from the spec: §4.1 `roll(state, outgoingByte, incomingByte)`
subtracts the outgoing byte's contribution and adds the incoming byte's
contribution in O(1).  Subtraction of `x` modulo `2^16` is performed by
adding `65536 - x % 65536` so the accumulators stay in `Nat`. -/
def roll (s : RollState) (outgoing incoming : Nat) : RollState :=
  let a' := (s.a + incoming + (65536 - outgoing % 65536)) % 65536
  ⟨a', (s.b + a' + s.len * (65536 - outgoing % 65536)) % 65536, s.len⟩

/-- Modelled from the spec: §4.1 `value(state) -> u32` combines the two
16-bit accumulators into a single 32-bit value. -/
def value (s : RollState) : Nat := s.a + 65536 * s.b

end RollingChecksum

theorem sumBytes_append_singleton (l : List Nat) (c : Nat) :
    sumBytes (l ++ [c]) = sumBytes l + c := by
  induction l with
  | nil => simp [sumBytes]
  | cons x xs ih => simp [sumBytes, ih]; omega

theorem weightedSum_append_singleton (l : List Nat) (c : Nat) :
    weightedSum (l ++ [c]) = weightedSum l + sumBytes l + c := by
  induction l with
  | nil => simp [weightedSum, sumBytes]
  | cons x xs ih =>
    simp [weightedSum, sumBytes, ih]
    ring

theorem roll_init_a (x inc : Nat) (xs : List Nat) (hx : x < 256) :
    (RollingChecksum.roll (RollingChecksum.init (x :: xs)) x inc).a
      = sumBytes (xs ++ [inc]) % 65536 := by
  have hxm : x % 65536 = x := Nat.mod_eq_of_lt (by omega)
  show ((x + sumBytes xs) % 65536 + inc + (65536 - x % 65536)) % 65536
      = sumBytes (xs ++ [inc]) % 65536
  rw [hxm, sumBytes_append_singleton]
  have h1 : (x + sumBytes xs) % 65536 + inc + (65536 - x)
      ≡ x + sumBytes xs + inc + (65536 - x) [MOD 65536] :=
    Nat.ModEq.add_right _ (Nat.ModEq.add_right _ (Nat.mod_modEq _ _))
  have h2 : x + sumBytes xs + inc + (65536 - x) = sumBytes xs + inc + 65536 := by
    omega
  calc ((x + sumBytes xs) % 65536 + inc + (65536 - x)) % 65536
      = (x + sumBytes xs + inc + (65536 - x)) % 65536 := h1
    _ = (sumBytes xs + inc + 65536) % 65536 := by rw [h2]
    _ = (sumBytes xs + inc) % 65536 := by
        have := Nat.add_mod_right (sumBytes xs + inc) 65536
        omega

theorem roll_init_b (x inc : Nat) (xs : List Nat) (hx : x < 256) :
    (RollingChecksum.roll (RollingChecksum.init (x :: xs)) x inc).b
      = weightedSum (xs ++ [inc]) % 65536 := by
  have hxm : x % 65536 = x := Nat.mod_eq_of_lt (by omega)
  have ha := roll_init_a x inc xs hx
  show (weightedSum (x :: xs) % 65536
        + (RollingChecksum.roll (RollingChecksum.init (x :: xs)) x inc).a
        + (x :: xs).length * (65536 - x % 65536)) % 65536
      = weightedSum (xs ++ [inc]) % 65536
  rw [ha, hxm, weightedSum_append_singleton, sumBytes_append_singleton]
  have hb0 : weightedSum (x :: xs) % 65536 ≡ (xs.length + 1) * x + weightedSum xs
      [MOD 65536] := by
    show weightedSum (x :: xs) % 65536 ≡ weightedSum (x :: xs) [MOD 65536]
    exact Nat.mod_modEq _ _
  have ha' : (sumBytes xs + inc) % 65536 ≡ sumBytes xs + inc [MOD 65536] :=
    Nat.mod_modEq _ _
  have hlen : (x :: xs).length = xs.length + 1 := rfl
  rw [hlen]
  have hsum : weightedSum (x :: xs) % 65536 + (sumBytes xs + inc) % 65536
        + (xs.length + 1) * (65536 - x)
      ≡ ((xs.length + 1) * x + weightedSum xs) + (sumBytes xs + inc)
        + (xs.length + 1) * (65536 - x) [MOD 65536] :=
    Nat.ModEq.add_right _ (Nat.ModEq.add hb0 ha')
  have hdist : (xs.length + 1) * (65536 - x) + (xs.length + 1) * x
      = (xs.length + 1) * 65536 := by
    rw [← Nat.mul_add]
    congr 1
    omega
  have h2 : ((xs.length + 1) * x + weightedSum xs) + (sumBytes xs + inc)
        + (xs.length + 1) * (65536 - x)
      = weightedSum xs + sumBytes xs + inc + (xs.length + 1) * 65536 := by
    omega
  calc (weightedSum (x :: xs) % 65536 + (sumBytes xs + inc) % 65536
        + (xs.length + 1) * (65536 - x)) % 65536
      = (((xs.length + 1) * x + weightedSum xs) + (sumBytes xs + inc)
        + (xs.length + 1) * (65536 - x)) % 65536 := hsum
    _ = (weightedSum xs + sumBytes xs + inc + (xs.length + 1) * 65536) % 65536 := by
        rw [h2]
    _ = (weightedSum xs + sumBytes xs + inc) % 65536 :=
        Nat.add_mul_mod_self_right _ _ _

/-- C9: for every non-empty window `x :: xs` of bytes and every incoming
byte `inc`, rolling the checksum one byte forward (removing the outgoing
byte `x`, adding `inc`) yields the same checksum value as initialising the
checksum directly on the slid window `xs ++ [inc]`. -/
theorem rolling_checksum_roll_agrees_with_init (x inc : Nat) (xs : List Nat)
    (hw : ∀ b ∈ x :: xs, b < 256) (hinc : inc < 256) :
    RollingChecksum.value (RollingChecksum.roll (RollingChecksum.init (x :: xs)) x inc)
      = RollingChecksum.value (RollingChecksum.init (xs ++ [inc])) := by
  have hx : x < 256 := hw x (List.mem_cons_self x xs)
  show (RollingChecksum.roll (RollingChecksum.init (x :: xs)) x inc).a
        + 65536 * (RollingChecksum.roll (RollingChecksum.init (x :: xs)) x inc).b
      = sumBytes (xs ++ [inc]) % 65536 + 65536 * (weightedSum (xs ++ [inc]) % 65536)
  rw [roll_init_a x inc xs hx, roll_init_b x inc xs hx]

/-- Witness for C9 at the concrete window `[7, 2, 5]` rolling in `9`. -/
theorem rolling_checksum_roll_agrees_with_init_witness :
    RollingChecksum.value
        (RollingChecksum.roll (RollingChecksum.init (7 :: [2, 5])) 7 9)
      = RollingChecksum.value (RollingChecksum.init ([2, 5] ++ [9])) :=
  rolling_checksum_roll_agrees_with_init 7 9 [2, 5] (by decide) (by decide)

/-- Modelled from the spec: §4.2 StrongHasher — `digest(bytes) -> Hash`.
The spec requires a hash strong enough that distinct blocks are
distinguished (its reconstruction property in §8 presumes collision
freedom), so the digest is idealised as the injective identity map on the
block's bytes. -/
def StrongHasher.digest (bytes : List Nat) : List Nat := bytes

/-- Modelled from the spec: §4.3 — partition a stream into non-overlapping
chunks of `n` bytes; the final chunk may be shorter. -/
def chunksOf (n : Nat) (l : List Nat) : List (List Nat) :=
  if h : n = 0 ∨ l = [] then []
  else l.take n :: chunksOf n (l.drop n)
termination_by l.length
decreasing_by
  push_neg at h
  have h1 : 0 < l.length := List.length_pos.mpr h.2
  simp only [List.length_drop]
  omega

/-- Modelled from the spec: §3 — a Signature is an ordered sequence of
`(weakChecksum, strongHash)` pairs, one per block, plus the header fields
`blockLen` and `strongHashLen`. -/
structure Signature where
  blockLen : Nat
  strongHashLen : Nat
  blocks : List (Nat × List Nat)
deriving DecidableEq

/-- Weak checksum of a whole block: the rolling checksum initialised on it. -/
def weakOf (block : List Nat) : Nat :=
  RollingChecksum.value (RollingChecksum.init block)

/-- Modelled from the spec: §4.3 SignatureBuilder —
`build(basisStream, blockLen, strongHashLen) -> Signature` fails with
`InvalidConfig` on a bad `blockLen`/`strongHashLen`; otherwise it chunks
the basis and records each chunk's weak checksum and strong digest in
stream order. -/
def SignatureBuilder.build (basis : List Nat) (blockLen strongHashLen : Nat) :
    Except RsyncError Signature :=
  if blockLen = 0 ∨ strongHashLen = 0 then .error .invalidConfig
  else .ok ⟨blockLen, strongHashLen,
    (chunksOf blockLen basis).map (fun c => (weakOf c, StrongHasher.digest c))⟩

theorem chunksOf_length (n : Nat) (hn : 0 < n) (l : List Nat) :
    (chunksOf n l).length = (l.length + n - 1) / n := by
  generalize hl : l.length = m
  induction m using Nat.strong_induction_on generalizing l with
  | _ m ih =>
    rw [chunksOf]
    by_cases hnil : l = []
    · subst hnil
      rw [dif_pos (Or.inr rfl)]
      simp only [List.length_nil]
      have hm : m = 0 := by simpa using hl.symm
      subst hm
      symm
      apply Nat.div_eq_of_lt
      omega
    · have hpos : 0 < l.length := List.length_pos.mpr hnil
      rw [dif_neg (by push_neg; exact ⟨by omega, hnil⟩)]
      simp only [List.length_cons]
      rw [ih (l.drop n).length (by simp [List.length_drop]; omega) (l.drop n) rfl]
      simp only [List.length_drop]
      subst hl
      rcases Nat.lt_or_ge l.length n with hlt | hge
      · have h0 : l.length - n = 0 := by omega
        rw [h0]
        have hone : (l.length + n - 1) / n = 1 := by
          apply Nat.div_eq_of_lt_le
          · omega
          · omega
        simp only [hone]
        rw [Nat.zero_add]
        have hz : (n - 1) / n = 0 := Nat.div_eq_of_lt (by omega)
        omega
      · have : l.length - n + n - 1 + n = l.length + n - 1 := by omega
        rw [← this, Nat.add_div_right _ hn]

/-- C5: for every basis stream, every `blockLen ≥ 1` and every valid
`strongHashLen`, `build` succeeds and its signature has exactly
`ceil(basisLen / blockLen)` entries, one per block; in particular a basis
of length 0 yields a signature with zero blocks. -/
theorem signature_block_count (basis : List Nat) (blockLen strongHashLen : Nat)
    (hbl : 1 ≤ blockLen) (hsh : 1 ≤ strongHashLen) :
    (SignatureBuilder.build basis blockLen strongHashLen).map
        (fun sig => sig.blocks.length)
      = .ok ((basis.length + blockLen - 1) / blockLen)
      ∧ (SignatureBuilder.build [] blockLen strongHashLen).map
        (fun sig => sig.blocks.length) = .ok 0 := by
  have hc : ¬(blockLen = 0 ∨ strongHashLen = 0) := by omega
  constructor
  · unfold SignatureBuilder.build
    rw [if_neg hc]
    simp only [Except.map, List.length_map]
    rw [chunksOf_length blockLen (by omega) basis]
  · unfold SignatureBuilder.build
    rw [if_neg hc]
    simp only [Except.map, List.length_map]
    rw [chunksOf_length blockLen (by omega) []]
    simp only [List.length_nil, Nat.zero_add]
    rw [Nat.div_eq_of_lt (by omega)]

/-- Witness for C5 at basis `[1, 2, 3]` with `blockLen = 2`,
`strongHashLen = 4`. -/
theorem signature_block_count_witness :
    (SignatureBuilder.build [1, 2, 3] 2 4).map (fun sig => sig.blocks.length)
        = .ok ((([1, 2, 3] : List Nat).length + 2 - 1) / 2)
      ∧ (SignatureBuilder.build [] 2 4).map (fun sig => sig.blocks.length) = .ok 0 :=
  signature_block_count [1, 2, 3] 2 4 (by decide) (by decide)

/-- C6: `build` fails with `InvalidConfig` when `blockLen = 0`, returning
the error alone — no partial signature is produced. -/
theorem build_zero_blockLen_invalidConfig (basis : List Nat) (strongHashLen : Nat) :
    SignatureBuilder.build basis 0 strongHashLen = .error .invalidConfig := by
  unfold SignatureBuilder.build
  rw [if_pos (Or.inl rfl)]

/-- Modelled from the spec: §4.4 SignatureIndex — a read-only view of a
signature supporting lookup from a weak checksum to the candidate
`(blockIndex, strongHash)` pairs, in block order. -/
structure SignatureIndex where
  sig : Signature
deriving DecidableEq

/-- Modelled from the spec: §4.4 `build(signature) -> Index` — a read-only
borrow of the signature. -/
def SignatureIndex.build (s : Signature) : SignatureIndex := ⟨s⟩

/-- Candidate scan underlying `lookup`: walk the blocks, pairing each with
its 0-based index, keeping those whose weak checksum matches. -/
def SignatureIndex.lookupFrom :
    List (Nat × List Nat) → Nat → Nat → List (Nat × List Nat)
  | [], _, _ => []
  | (wk, st) :: t, i, w =>
    (if wk = w then [(i, st)] else []) ++ SignatureIndex.lookupFrom t (i + 1) w

/-- Modelled from the spec: §4.4 `lookup(weakChecksum)` returns the
candidate `(blockIndex, strongHash)` pairs with that weak checksum (empty
if absent), lowest block index first. -/
def SignatureIndex.lookup (idx : SignatureIndex) (w : Nat) : List (Nat × List Nat) :=
  SignatureIndex.lookupFrom idx.sig.blocks 0 w

/-- Modelled from the spec: §3 — an instruction is either
`Copy{basisOffset, length}` or `Literal{bytes}`. -/
inductive Instruction where
  | copy (basisOffset length : Nat)
  | literal (bytes : List Nat)
deriving DecidableEq

/-- Modelled from the spec: §4.5 DeltaEncoder — the greedy single-pass
loop.  While at least `blockLen` bytes remain, the window is the next
`blockLen` bytes: on a strong-hash-verified index hit the pending literal
run is flushed, a Copy of the matched block is emitted and the cursor
advances a whole block; otherwise one byte joins the pending literal run
and the cursor advances by one.  Fewer than `blockLen` remaining bytes can
match no block and join the pending run, flushed as one final Literal. -/
def DeltaEncoder.encodeLoop (idx : SignatureIndex) (blockLen : Nat)
    (rest pending : List Nat) : List Instruction :=
  if h : blockLen = 0 ∨ rest.length < blockLen then
    if pending ++ rest = [] then [] else [.literal (pending ++ rest)]
  else
    match (idx.lookup (weakOf (rest.take blockLen))).find?
        (fun c => c.2 = StrongHasher.digest (rest.take blockLen)) with
    | some (i, _) =>
      (if pending = [] then [] else [.literal pending])
        ++ .copy (i * blockLen) blockLen
        :: DeltaEncoder.encodeLoop idx blockLen (rest.drop blockLen) []
    | none =>
      DeltaEncoder.encodeLoop idx blockLen (rest.drop 1) (pending ++ rest.take 1)
termination_by rest.length
decreasing_by
  · push_neg at h
    simp only [List.length_drop]
    omega
  · push_neg at h
    simp only [List.length_drop]
    omega

/-- Modelled from the spec: §4.5
`encode(newStream, index, basisBlockLen) -> sequence of Instruction`. -/
def DeltaEncoder.encode (newStream : List Nat) (idx : SignatureIndex)
    (basisBlockLen : Nat) : List Instruction :=
  DeltaEncoder.encodeLoop idx basisBlockLen newStream []

/-- Modelled from the spec: §4.6 DeltaApplier — for each Copy, read
`length` bytes of the basis at `basisOffset` (failing with `OutOfRange` if
the span exceeds the basis length) and append; for each Literal, append
its bytes; instructions are processed in order. -/
def DeltaApplier.applyGo (basis : List Nat) :
    List Instruction → Except RsyncError (List Nat)
  | [] => .ok []
  | .copy off len :: t =>
    if off + len ≤ basis.length then
      (DeltaApplier.applyGo basis t).map (fun r => (basis.drop off).take len ++ r)
    else .error .outOfRange
  | .literal bs :: t =>
    (DeltaApplier.applyGo basis t).map (fun r => bs ++ r)

/-- Modelled from the spec: §4.6 `apply(instructions, basisStream) ->
targetStream`. -/
def DeltaApplier.apply (instructions : List Instruction) (basis : List Nat) :
    Except RsyncError (List Nat) :=
  DeltaApplier.applyGo basis instructions

/-- C4: the two halves of the Copy contract of `apply`.  Any instruction
stream containing a Copy whose span `basisOffset + length` exceeds the
basis length makes `apply` fail with `OutOfRange` (never a silently
truncated output); a Copy whose span lies inside the basis appends exactly
`length` bytes read from the basis at `basisOffset`. -/
theorem apply_copy_range_contract :
    (∀ (instrs : List Instruction) (basis : List Nat),
      (∃ off len, Instruction.copy off len ∈ instrs ∧ basis.length < off + len) →
      DeltaApplier.apply instrs basis = .error .outOfRange)
    ∧ ∀ (off len : Nat) (t : List Instruction) (basis : List Nat),
      off + len ≤ basis.length →
      DeltaApplier.applyGo basis (.copy off len :: t)
        = (DeltaApplier.applyGo basis t).map (fun r => (basis.drop off).take len ++ r)
      ∧ ((basis.drop off).take len).length = len := by
  constructor
  · intro instrs basis h
    obtain ⟨off, len, hmem, hover⟩ := h
    show DeltaApplier.applyGo basis instrs = .error .outOfRange
    induction instrs with
    | nil => cases hmem
    | cons i t ih =>
      cases i with
      | copy o l =>
        rcases List.mem_cons.mp hmem with heq | hmemt
        · cases heq
          unfold DeltaApplier.applyGo
          rw [if_neg (by omega)]
        · unfold DeltaApplier.applyGo
          by_cases hcheck : o + l ≤ basis.length
          · rw [if_pos hcheck, ih hmemt]
            rfl
          · rw [if_neg hcheck]
      | literal bs =>
        have hmemt : Instruction.copy off len ∈ t := by
          rcases List.mem_cons.mp hmem with heq | hmemt
          · cases heq
          · exact hmemt
        unfold DeltaApplier.applyGo
        rw [ih hmemt]
        rfl
  · intro off len t basis hin
    constructor
    · conv_lhs => rw [DeltaApplier.applyGo]
      rw [if_pos hin]
    · simp only [List.length_take, List.length_drop]
      omega

/-- Witness for C4: a Copy of 3 bytes at offset 2 against a 2-byte basis
fails with `OutOfRange`, while a 1-byte in-range Copy appends exactly that
byte. -/
theorem apply_copy_range_contract_witness :
    DeltaApplier.apply [.copy 2 3] [0, 0] = .error .outOfRange
      ∧ (DeltaApplier.applyGo [5] [.copy 0 1]
          = (DeltaApplier.applyGo [5] []).map
              (fun r => (([5] : List Nat).drop 0).take 1 ++ r)
        ∧ ((([5] : List Nat).drop 0).take 1).length = 1) :=
  ⟨apply_copy_range_contract.1 [.copy 2 3] [0, 0] ⟨2, 3, by decide, by decide⟩,
    apply_copy_range_contract.2 0 1 [] [5] (by decide)⟩

/-- Recursive check that an instruction list never has two Literal
instructions next to each other. -/
def noTwoLiteralsB : List Instruction → Bool
  | .literal _ :: .literal _ :: _ => false
  | _ :: t => noTwoLiteralsB t
  | [] => true

theorem noTwoLiteralsB_copy_cons (o l : Nat) (t : List Instruction) :
    noTwoLiteralsB (.copy o l :: t) = noTwoLiteralsB t := by
  cases t with
  | nil => rfl
  | cons x t' => cases x <;> rfl

theorem noTwoLiteralsB_literal_copy_cons (bs : List Nat) (o l : Nat)
    (t : List Instruction) :
    noTwoLiteralsB (.literal bs :: .copy o l :: t)
      = noTwoLiteralsB (.copy o l :: t) := rfl

theorem encodeLoop_noTwoLiterals (idx : SignatureIndex) (bl : Nat) :
    ∀ (m : Nat) (rest : List Nat), rest.length ≤ m → ∀ pending,
      noTwoLiteralsB (DeltaEncoder.encodeLoop idx bl rest pending) = true := by
  intro m
  induction m with
  | zero =>
    intro rest hm pending
    have hrest : rest = [] := List.eq_nil_of_length_eq_zero (by omega)
    subst hrest
    rw [DeltaEncoder.encodeLoop, dif_pos (by simp; omega)]
    split
    · rfl
    · rfl
  | succ m ih =>
    intro rest hm pending
    rw [DeltaEncoder.encodeLoop]
    by_cases hc : bl = 0 ∨ rest.length < bl
    · rw [dif_pos hc]
      split
      · rfl
      · cases pending ++ rest with
        | nil => rfl
        | cons x t => cases t <;> rfl
    · rw [dif_neg hc]
      push_neg at hc
      split
      · rename_i i s heq
        have hrec := ih (rest.drop bl) (by simp [List.length_drop]; omega) []
        by_cases hp : pending = []
        · rw [if_pos hp]
          simp only [List.nil_append]
          rw [noTwoLiteralsB_copy_cons]
          exact hrec
        · rw [if_neg hp]
          simp only [List.singleton_append]
          rw [noTwoLiteralsB_literal_copy_cons, noTwoLiteralsB_copy_cons]
          exact hrec
      · exact ih (rest.drop 1) (by simp [List.length_drop]; omega) (pending ++ rest.take 1)

/-- C8: for every new stream, every signature index and every block
length, the instruction sequence emitted by the delta encoder never
contains two consecutive Literal instructions. -/
theorem encoder_literals_coalesced (newStream : List Nat) (idx : SignatureIndex)
    (blockLen : Nat) :
    noTwoLiteralsB (DeltaEncoder.encode newStream idx blockLen) = true :=
  encodeLoop_noTwoLiterals idx blockLen newStream.length newStream
    (Nat.le_refl _) []

theorem lookupFrom_mem (w j : Nat) (s : List Nat) :
    ∀ (blocks : List (Nat × List Nat)) (i : Nat),
      (j, s) ∈ SignatureIndex.lookupFrom blocks i w →
      ∃ k, blocks[k]? = some (w, s) ∧ j = i + k := by
  intro blocks
  induction blocks with
  | nil =>
    intro i h
    cases h
  | cons hd t ih =>
    intro i h
    obtain ⟨wk, st⟩ := hd
    unfold SignatureIndex.lookupFrom at h
    rcases List.mem_append.mp h with hhead | htail
    · by_cases hwk : wk = w
      · rw [if_pos hwk] at hhead
        subst hwk
        have hj : j = i ∧ s = st := by
          cases hhead with
          | head => exact ⟨rfl, rfl⟩
          | tail _ h2 => cases h2
        obtain ⟨hj1, hj2⟩ := hj
        subst hj1
        subst hj2
        exact ⟨0, by simp, by omega⟩
      · rw [if_neg hwk] at hhead
        cases hhead
    · obtain ⟨k, hk, hjk⟩ := ih (i + 1) htail
      exact ⟨k + 1, by simpa using hk, by omega⟩

theorem chunksOf_getElem (n : Nat) (hn : 0 < n) :
    ∀ (m : Nat) (l : List Nat), l.length ≤ m → ∀ (k : Nat) (c : List Nat),
      (chunksOf n l)[k]? = some c → c = (l.drop (n * k)).take n := by
  intro m
  induction m with
  | zero =>
    intro l hm k c hc
    have hl : l = [] := List.eq_nil_of_length_eq_zero (by omega)
    subst hl
    rw [chunksOf, dif_pos (Or.inr rfl)] at hc
    cases hc
  | succ m ih =>
    intro l hm k c hc
    by_cases hnil : l = []
    · subst hnil
      rw [chunksOf, dif_pos (Or.inr rfl)] at hc
      cases hc
    · rw [chunksOf, dif_neg (by push_neg; exact ⟨by omega, hnil⟩)] at hc
      cases k with
      | zero =>
        simp only [List.getElem?_cons_zero, Option.some.injEq] at hc
        subst hc
        simp
      | succ k =>
        simp only [List.getElem?_cons_succ] at hc
        have hdl : (l.drop n).length ≤ m := by
          have : 0 < l.length := List.length_pos.mpr hnil
          simp only [List.length_drop]
          omega
        have := ih (l.drop n) hdl k c hc
        rw [this, List.drop_drop]
        congr 2
        rw [Nat.mul_succ]
        omega

theorem chunk_full_length_bound (n : Nat) (hn : 0 < n) (l : List Nat) (k : Nat)
    (c : List Nat) (hc : c = (l.drop (n * k)).take n) (hlen : c.length = n) :
    n * k + n ≤ l.length := by
  subst hc
  simp only [List.length_take, List.length_drop] at hlen
  by_cases hk : n * k ≤ l.length
  · omega
  · exfalso
    omega

theorem encodeLoop_apply_reconstructs (B : List Nat) (bl hl : Nat) (hbl : 1 ≤ bl) :
    ∀ (m : Nat) (rest : List Nat), rest.length ≤ m → ∀ pending,
      DeltaApplier.applyGo B
        (DeltaEncoder.encodeLoop
          (SignatureIndex.build ⟨bl, hl,
            (chunksOf bl B).map (fun c => (weakOf c, StrongHasher.digest c))⟩)
          bl rest pending)
      = .ok (pending ++ rest) := by
  intro m
  induction m with
  | zero =>
    intro rest hm pending
    have hrest : rest = [] := List.eq_nil_of_length_eq_zero (by omega)
    subst hrest
    rw [DeltaEncoder.encodeLoop, dif_pos (by simp; omega)]
    split
    · rename_i hemp
      rw [hemp]
      rfl
    · show Except.map _ (DeltaApplier.applyGo B []) = _
      simp [DeltaApplier.applyGo, Except.map]
  | succ m ih =>
    intro rest hm pending
    rw [DeltaEncoder.encodeLoop]
    by_cases hc : bl = 0 ∨ rest.length < bl
    · rw [dif_pos hc]
      split
      · rename_i hemp
        rw [hemp]
        rfl
      · show Except.map _ (DeltaApplier.applyGo B []) = _
        simp [DeltaApplier.applyGo, Except.map]
    · rw [dif_neg hc]
      push_neg at hc
      obtain ⟨hbl0, hrestlen⟩ := hc
      split
      · rename_i i s heq
        have hpred := List.find?_some heq
        have hmem := List.mem_of_find?_eq_some heq
        simp only [decide_eq_true_eq] at hpred
        obtain ⟨k, hk, hik⟩ := lookupFrom_mem _ i s _ 0 hmem
        have hi : k = i := by omega
        subst hi
        have hk2 : ((chunksOf bl B).map
              (fun c => (weakOf c, StrongHasher.digest c)))[k]?
            = some (weakOf (rest.take bl), s) := hk
        rw [List.getElem?_map] at hk2
        obtain ⟨c, hck, hcs⟩ : ∃ c, (chunksOf bl B)[k]? = some c
            ∧ (weakOf c, StrongHasher.digest c) = (weakOf (rest.take bl), s) := by
          cases hcget : (chunksOf bl B)[k]? with
          | none => rw [hcget] at hk2; cases hk2
          | some c =>
            rw [hcget] at hk2
            simp at hk2
            exact ⟨c, rfl, by simp [hk2.1, hk2.2]⟩
        have hsc : s = c := by
          have := congrArg Prod.snd hcs
          simpa [StrongHasher.digest] using this.symm
        have hwindow : c = rest.take bl := by
          rw [← hsc, hpred, StrongHasher.digest]
        have hcdt : c = (B.drop (bl * k)).take bl :=
          chunksOf_getElem bl (by omega) B.length B (Nat.le_refl _) k c hck
        have hclen : c.length = bl := by
          rw [hwindow]
          simp only [List.length_take]
          omega
        have hbound : bl * k + bl ≤ B.length :=
          chunk_full_length_bound bl (by omega) B k c hcdt hclen
        have hrec := ih (rest.drop bl) (by simp only [List.length_drop]; omega) []
        have hcopy : DeltaApplier.applyGo B
            (Instruction.copy (k * bl) bl
              :: DeltaEncoder.encodeLoop
                (SignatureIndex.build ⟨bl, hl,
                  (chunksOf bl B).map (fun c => (weakOf c, StrongHasher.digest c))⟩)
                bl (rest.drop bl) [])
            = .ok rest := by
          conv_lhs => rw [DeltaApplier.applyGo]
          rw [if_pos (by rw [Nat.mul_comm] at hbound; omega), hrec]
          simp only [Except.map, List.nil_append]
          have hseg : (B.drop (k * bl)).take bl = rest.take bl := by
            rw [Nat.mul_comm k bl, ← hcdt, hwindow]
          rw [hseg, List.take_append_drop]
        by_cases hp : pending = []
        · rw [if_pos hp]
          subst hp
          simpa using hcopy
        · rw [if_neg hp]
          simp only [List.singleton_append]
          conv_lhs => rw [DeltaApplier.applyGo]
          rw [hcopy]
          rfl
      · have hrec := ih (rest.drop 1)
          (by simp only [List.length_drop]; omega) (pending ++ rest.take 1)
        rw [hrec, List.append_assoc, List.take_append_drop]

/-- C1: for every basis `B`, target `T`, `blockLen ≥ 1` and valid
`strongHashLen`, building the signature of `B`, encoding `T` against its
index and applying the delta to `B` reconstructs `T` exactly. -/
theorem delta_reconstruction (B T : List Nat) (blockLen strongHashLen : Nat)
    (hbl : 1 ≤ blockLen) (hsh : 1 ≤ strongHashLen) :
    ∃ sig, SignatureBuilder.build B blockLen strongHashLen = .ok sig
      ∧ DeltaApplier.apply
          (DeltaEncoder.encode T (SignatureIndex.build sig) blockLen) B = .ok T := by
  refine ⟨⟨blockLen, strongHashLen,
    (chunksOf blockLen B).map (fun c => (weakOf c, StrongHasher.digest c))⟩, ?_, ?_⟩
  · unfold SignatureBuilder.build
    rw [if_neg (by omega)]
  · have h := encodeLoop_apply_reconstructs B blockLen strongHashLen hbl
      T.length T (Nat.le_refl _) []
    simp only [List.nil_append] at h
    exact h

/-- Witness for C1 at basis `[10, 11]`, target `[10, 11, 12]`,
`blockLen = 1`, `strongHashLen = 1`. -/
theorem delta_reconstruction_witness :
    ∃ sig, SignatureBuilder.build [10, 11] 1 1 = .ok sig
      ∧ DeltaApplier.apply
          (DeltaEncoder.encode [10, 11, 12] (SignatureIndex.build sig) 1) [10, 11]
        = .ok [10, 11, 12] :=
  delta_reconstruction [10, 11] [10, 11, 12] 1 1 (by decide) (by decide)

/-- Big-endian encoding of `v` on `w` bytes (most significant first);
values are reduced modulo `2^(8w)` by construction. -/
def beBytes : Nat → Nat → List Nat
  | 0, _ => []
  | w + 1, v => beBytes w (v / 256) ++ [v % 256]

/-- Big-endian value of a byte sequence (most significant first). -/
def beVal (l : List Nat) : Nat := l.foldl (fun acc b => acc * 256 + b) 0

/-- Modelled from the spec: §6 wire format, per record — tag byte `0x00`
for Copy followed by 8-byte big-endian `basisOffset` and 8-byte big-endian
`length`; tag byte `0x01` for Literal followed by a 4-byte big-endian
length and that many raw bytes. -/
def InstructionCodec.encodeRecord : Instruction → List Nat
  | .copy off len => 0 :: (beBytes 8 off ++ beBytes 8 len)
  | .literal bs => 1 :: (beBytes 4 bs.length ++ bs)

/-- Modelled from the spec: §6 — a serialized instruction stream is the
format-version byte `1` followed by the records in order. -/
def InstructionCodec.encode (instructions : List Instruction) : List Nat :=
  1 :: (instructions.map InstructionCodec.encodeRecord).foldr (· ++ ·) []

/-- Modelled from the spec: §6/§4.7 — decode the record stream after the
version byte; fails with `MalformedStream` on a truncated record, an
unknown tag byte, or a length field inconsistent with the remaining
bytes. -/
def InstructionCodec.decodeRecords : List Nat → Except RsyncError (List Instruction)
  | [] => .ok []
  | 0 :: rest =>
    if 16 ≤ rest.length then
      (InstructionCodec.decodeRecords (rest.drop 16)).map
        (fun t => .copy (beVal (rest.take 8)) (beVal ((rest.drop 8).take 8)) :: t)
    else .error .malformedStream
  | 1 :: rest =>
    if 4 ≤ rest.length then
      if beVal (rest.take 4) ≤ rest.length - 4 then
        (InstructionCodec.decodeRecords (rest.drop (4 + beVal (rest.take 4)))).map
          (fun t => .literal ((rest.drop 4).take (beVal (rest.take 4))) :: t)
      else .error .malformedStream
    else .error .malformedStream
  | _ :: _ => .error .malformedStream
termination_by l => l.length
decreasing_by
  · simp only [List.length_drop, List.length_cons]
    omega
  · simp only [List.length_drop, List.length_cons]
    omega

/-- Modelled from the spec: §4.7 `decode(bytes) -> instructions` — checks
the version byte, then decodes records until the input is exhausted. -/
def InstructionCodec.decode (bytes : List Nat) : Except RsyncError (List Instruction) :=
  match bytes with
  | 1 :: body => InstructionCodec.decodeRecords body
  | _ => .error .malformedStream

/-- The validity condition of the wire format for one instruction: Copy
fields fit in their 8-byte fields, a Literal's byte count fits in its
4-byte field, and literal bytes are bytes. -/
def validInstrB : Instruction → Bool
  | .copy off len => decide (off < 2 ^ 64) && decide (len < 2 ^ 64)
  | .literal bs => decide (bs.length < 2 ^ 32) && bs.all (fun b => decide (b < 256))

theorem beBytes_length (w v : Nat) : (beBytes w v).length = w := by
  induction w generalizing v with
  | zero => rfl
  | succ w ih => simp [beBytes, ih]

theorem beVal_append_singleton (l : List Nat) (b : Nat) :
    beVal (l ++ [b]) = beVal l * 256 + b := by
  simp [beVal, List.foldl_append]

theorem beVal_beBytes (w v : Nat) : beVal (beBytes w v) = v % 256 ^ w := by
  induction w generalizing v with
  | zero =>
    show beVal [] = v % 256 ^ 0
    simp [beVal]
    omega
  | succ w ih =>
    show beVal (beBytes w (v / 256) ++ [v % 256]) = v % 256 ^ (w + 1)
    rw [beVal_append_singleton, ih]
    have hpow : 256 ^ (w + 1) = 256 * 256 ^ w := by
      rw [Nat.pow_succ]
      omega
    rw [hpow, Nat.mod_mul]
    omega

theorem decodeRecords_copy_cons (off len : Nat) (hoff : off < 2 ^ 64)
    (hlen : len < 2 ^ 64) (rest : List Nat) :
    InstructionCodec.decodeRecords
        (InstructionCodec.encodeRecord (.copy off len) ++ rest)
      = (InstructionCodec.decodeRecords rest).map
          (fun t => Instruction.copy off len :: t) := by
  show InstructionCodec.decodeRecords
      (0 :: ((beBytes 8 off ++ beBytes 8 len) ++ rest)) = _
  rw [InstructionCodec.decodeRecords]
  have hlen16 : 16 ≤ ((beBytes 8 off ++ beBytes 8 len) ++ rest).length := by
    simp [beBytes_length]
    omega
  rw [if_pos hlen16]
  have hassoc : (beBytes 8 off ++ beBytes 8 len) ++ rest
      = beBytes 8 off ++ (beBytes 8 len ++ rest) := by
    rw [List.append_assoc]
  have htake8 : ((beBytes 8 off ++ beBytes 8 len) ++ rest).take 8 = beBytes 8 off := by
    rw [hassoc]
    exact List.take_left' (beBytes_length 8 off)
  have hdrop8 : ((beBytes 8 off ++ beBytes 8 len) ++ rest).drop 8
      = beBytes 8 len ++ rest := by
    rw [hassoc]
    exact List.drop_left' (beBytes_length 8 off)
  have htake8b : (((beBytes 8 off ++ beBytes 8 len) ++ rest).drop 8).take 8
      = beBytes 8 len := by
    rw [hdrop8]
    exact List.take_left' (beBytes_length 8 len)
  have hdrop16 : ((beBytes 8 off ++ beBytes 8 len) ++ rest).drop 16 = rest := by
    have h8 : (16 : Nat) = 8 + 8 := by omega
    rw [h8, ← List.drop_drop, hdrop8]
    exact List.drop_left' (beBytes_length 8 len)
  rw [htake8, htake8b, hdrop16, beVal_beBytes, beVal_beBytes]
  have h256 : (256 : Nat) ^ 8 = 2 ^ 64 := by norm_num
  rw [h256, Nat.mod_eq_of_lt hoff, Nat.mod_eq_of_lt hlen]

theorem decodeRecords_literal_cons (bs : List Nat) (hbs : bs.length < 2 ^ 32)
    (rest : List Nat) :
    InstructionCodec.decodeRecords
        (InstructionCodec.encodeRecord (.literal bs) ++ rest)
      = (InstructionCodec.decodeRecords rest).map
          (fun t => Instruction.literal bs :: t) := by
  show InstructionCodec.decodeRecords
      (1 :: ((beBytes 4 bs.length ++ bs) ++ rest)) = _
  rw [InstructionCodec.decodeRecords]
  have hassoc : (beBytes 4 bs.length ++ bs) ++ rest
      = beBytes 4 bs.length ++ (bs ++ rest) := by
    rw [List.append_assoc]
  have hlen4 : 4 ≤ ((beBytes 4 bs.length ++ bs) ++ rest).length := by
    simp [beBytes_length]
  rw [if_pos hlen4]
  have htake4 : ((beBytes 4 bs.length ++ bs) ++ rest).take 4 = beBytes 4 bs.length := by
    rw [hassoc]
    exact List.take_left' (beBytes_length 4 bs.length)
  have hval : beVal (((beBytes 4 bs.length ++ bs) ++ rest).take 4) = bs.length := by
    rw [htake4, beVal_beBytes]
    have h256 : (256 : Nat) ^ 4 = 2 ^ 32 := by norm_num
    rw [h256, Nat.mod_eq_of_lt hbs]
  have hrestlen : ((beBytes 4 bs.length ++ bs) ++ rest).length
      = 4 + bs.length + rest.length := by
    simp [beBytes_length]
    omega
  rw [if_pos (by rw [hval]; omega)]
  have hdrop4 : ((beBytes 4 bs.length ++ bs) ++ rest).drop 4 = bs ++ rest := by
    rw [hassoc]
    exact List.drop_left' (beBytes_length 4 bs.length)
  have htakebs : (((beBytes 4 bs.length ++ bs) ++ rest).drop 4).take
      (beVal (((beBytes 4 bs.length ++ bs) ++ rest).take 4)) = bs := by
    rw [hval, hdrop4]
    exact List.take_left' rfl
  have hdropall : ((beBytes 4 bs.length ++ bs) ++ rest).drop
      (4 + beVal (((beBytes 4 bs.length ++ bs) ++ rest).take 4)) = rest := by
    rw [hval, ← List.drop_drop, hdrop4]
    exact List.drop_left' rfl
  rw [htakebs, hdropall]

/-- C2: decoding the codec's encoding of any valid instruction sequence
yields the sequence again (round-trip law). -/
theorem codec_round_trip (instructions : List Instruction)
    (h : instructions.all validInstrB = true) :
    InstructionCodec.decode (InstructionCodec.encode instructions)
      = .ok instructions := by
  show InstructionCodec.decodeRecords
      ((instructions.map InstructionCodec.encodeRecord).foldr (· ++ ·) [])
    = .ok instructions
  induction instructions with
  | nil =>
    show InstructionCodec.decodeRecords [] = .ok []
    rw [InstructionCodec.decodeRecords]
  | cons i t ih =>
    simp only [List.all_cons, Bool.and_eq_true] at h
    have hrec := ih h.2
    simp only [List.map_cons, List.foldr_cons]
    cases i with
    | copy off len =>
      have hv := h.1
      simp only [validInstrB, Bool.and_eq_true, decide_eq_true_eq] at hv
      rw [decodeRecords_copy_cons off len hv.1 hv.2, hrec]
      rfl
    | literal bs =>
      have hv := h.1
      simp only [validInstrB, Bool.and_eq_true, decide_eq_true_eq] at hv
      rw [decodeRecords_literal_cons bs hv.1, hrec]
      rfl

/-- Witness for C2 at the sequence `[Copy 3 5, Literal [65, 66]]`. -/
theorem codec_round_trip_witness :
    InstructionCodec.decode
        (InstructionCodec.encode [.copy 3 5, .literal [65, 66]])
      = .ok [.copy 3 5, .literal [65, 66]] :=
  codec_round_trip [.copy 3 5, .literal [65, 66]] (by decide)

/-- C7: the decoder rejects malformed input with `MalformedStream` instead
of returning instructions — after the version byte, a record with an
unknown tag byte (neither `0x00` nor `0x01`), a Copy record truncated
before its 16 field bytes, a Literal record truncated before its 4-byte
length field, and a Literal length field inconsistent with (exceeding) the
remaining bytes all fail. -/
theorem decode_malformed_cases :
    (∀ body, InstructionCodec.decode (1 :: body) = InstructionCodec.decodeRecords body)
    ∧ (∀ tag rest, tag ≠ 0 → tag ≠ 1 →
        InstructionCodec.decodeRecords (tag :: rest) = .error .malformedStream)
    ∧ (∀ rest : List Nat, rest.length < 16 →
        InstructionCodec.decodeRecords (0 :: rest) = .error .malformedStream)
    ∧ (∀ rest : List Nat, rest.length < 4 →
        InstructionCodec.decodeRecords (1 :: rest) = .error .malformedStream)
    ∧ (∀ rest : List Nat, 4 ≤ rest.length → rest.length - 4 < beVal (rest.take 4) →
        InstructionCodec.decodeRecords (1 :: rest) = .error .malformedStream) := by
  refine ⟨fun body => rfl, ?_, ?_, ?_, ?_⟩
  · intro tag rest h0 h1
    obtain ⟨n, rfl⟩ : ∃ n, tag = n + 2 := ⟨tag - 2, by omega⟩
    rw [InstructionCodec.decodeRecords.eq_def]
    rfl
  · intro rest h
    rw [InstructionCodec.decodeRecords]
    rw [if_neg (by omega)]
  · intro rest h
    rw [InstructionCodec.decodeRecords]
    rw [if_neg (by omega)]
  · intro rest h4 hlen
    rw [InstructionCodec.decodeRecords]
    rw [if_pos h4, if_neg (by omega)]

/-- Witness for C7: an unknown tag `5`, a truncated Copy record, a
truncated Literal record, and a Literal length field claiming 7 bytes when
none remain, each rejected. -/
theorem decode_malformed_cases_witness :
    InstructionCodec.decode [1, 5] = InstructionCodec.decodeRecords [5]
      ∧ InstructionCodec.decodeRecords [5] = .error .malformedStream
      ∧ InstructionCodec.decodeRecords (0 :: [9, 9]) = .error .malformedStream
      ∧ InstructionCodec.decodeRecords (1 :: [9]) = .error .malformedStream
      ∧ InstructionCodec.decodeRecords (1 :: [0, 0, 0, 7]) = .error .malformedStream :=
  ⟨decode_malformed_cases.1 [5],
    decode_malformed_cases.2.1 5 [] (by decide) (by decide),
    decode_malformed_cases.2.2.1 [9, 9] (by decide),
    decode_malformed_cases.2.2.2.1 [9] (by decide),
    decode_malformed_cases.2.2.2.2 [0, 0, 0, 7] (by decide) (by decide)⟩

/-- A C preprocessor directive, as used by the wrapper header
`Sources/Clibrsync/include/librsync.h`. -/
inductive PPDirective where
  | ifndefGuard (n : String)
  | defineGuard (n : String)
  | ifHasInclude (path : String)
  | elseDirective
  | endifDirective
  | includeDirective (path : String)
deriving DecidableEq

/-- An item of a C source file: a preprocessor directive, a comment, or
algorithmic content (a function or data-structure definition). -/
inductive CItem where
  | directive (d : PPDirective)
  | comment (text : String)
  | functionDefinition (n : String)
  | dataStructureDefinition (n : String)
deriving DecidableEq

/-- The wrapper header `Sources/Clibrsync/include/librsync.h`, item by
item: the `CLIBRSYNC_WRAPPER_H` include guard, the explanatory comment,
and the availability-conditional inclusion of the system librsync
header. -/
def librsyncHeaderShim : List CItem := [
  .directive (.ifndefGuard ("CLIBRSYNC_WRAPPER_H")),
  .directive (.defineGuard ("CLIBRSYNC_WRAPPER_H")),
  .comment ("Umbrella header that exposes the system librsync header"),
  .comment ("This allows using the system-installed librsync while"),
  .comment ("keeping the module structure flexible across platforms"),
  .directive (.ifHasInclude ("librsync/librsync.h")),
  .directive (.includeDirective ("librsync/librsync.h")),
  .directive .elseDirective,
  .directive (.includeDirective ("librsync.h")),
  .directive .endifDirective,
  .directive .endifDirective]

/-- The repository's source files: the wrapper header is the only one. -/
def repositorySourceFiles : List (String × List CItem) :=
  [(("Sources/Clibrsync/include/librsync.h"), librsyncHeaderShim)]

/-- Whether an item defines algorithmic content of its own (a function or
a data structure). -/
def CItem.isAlgorithmicContent : CItem → Bool
  | .functionDefinition _ => true
  | .dataStructureDefinition _ => true
  | _ => false

/-- C3: the repository's source consists of exactly one file — the
wrapper header shim — and no item of it is a function or data-structure
definition; it is preprocessor directives and comments only. -/
theorem repository_is_header_shim_only :
    repositorySourceFiles
        = [(("Sources/Clibrsync/include/librsync.h"), librsyncHeaderShim)]
      ∧ librsyncHeaderShim.all (fun i => ! i.isAlgorithmicContent) = true :=
  ⟨rfl, by decide⟩

/-- Conditional-inclusion evaluation of a C file's items: `frames` is the
stack of open conditionals as `(branchActive, branchTakenSoFar)` pairs,
`defs` the set of defined macro names, `hasInc` tells which include paths
are available; emits the list of paths included, in order. -/
def ppIncludes (hasInc : String → Bool) :
    List CItem → List String → List (Bool × Bool) → List String
  | [], _, _ => []
  | .comment _ :: t, defs, frames => ppIncludes hasInc t defs frames
  | .functionDefinition _ :: t, defs, frames => ppIncludes hasInc t defs frames
  | .dataStructureDefinition _ :: t, defs, frames => ppIncludes hasInc t defs frames
  | .directive d :: t, defs, frames =>
    match d with
    | .ifndefGuard n =>
      ppIncludes hasInc t defs ((! defs.contains n, ! defs.contains n) :: frames)
    | .ifHasInclude p =>
      ppIncludes hasInc t defs ((hasInc p, hasInc p) :: frames)
    | .elseDirective =>
      match frames with
      | [] => ppIncludes hasInc t defs []
      | (_, taken) :: frames' => ppIncludes hasInc t defs ((! taken, true) :: frames')
    | .endifDirective => ppIncludes hasInc t defs frames.tail
    | .defineGuard n =>
      if frames.all (fun f => f.1) then ppIncludes hasInc t (n :: defs) frames
      else ppIncludes hasInc t defs frames
    | .includeDirective p =>
      if frames.all (fun f => f.1) then p :: ppIncludes hasInc t defs frames
      else ppIncludes hasInc t defs frames

/-- The include paths the wrapper header expands to, given which system
header paths are available. -/
def shimIncludes (hasInc : String → Bool) : List String :=
  ppIncludes hasInc librsyncHeaderShim [] []

/-- C10: including the wrapper header selects the system header
deterministically by availability — `librsync/librsync.h` whenever that
path is available, otherwise `librsync.h` — and exactly one header is ever
included. -/
theorem shim_selects_exactly_one_header (hasInc : String → Bool) :
    shimIncludes hasInc
        = (if hasInc ("librsync/librsync.h") then [("librsync/librsync.h")]
           else [("librsync.h")])
      ∧ (shimIncludes hasInc).length = 1 := by
  have hcase : shimIncludes hasInc
      = (if hasInc ("librsync/librsync.h") then [("librsync/librsync.h")]
         else [("librsync.h")]) := by
    cases h : hasInc ("librsync/librsync.h") with
    | false => simp [shimIncludes, librsyncHeaderShim, ppIncludes, h]
    | true => simp [shimIncludes, librsyncHeaderShim, ppIncludes, h]
  refine ⟨hcase, ?_⟩
  rw [hcase]
  cases hasInc ("librsync/librsync.h") <;> rfl
